import Mathlib

/-!
Verification of the sberdemo turn-processing core against its code
(`nlu.py`, `router.py`).  The Python functions are shallowly embedded as
executable Lean definitions: Python `str` operations are re-implemented
over `List Char` with Python semantics, Python dicts become association
lists with Python's update-in-place-or-append insertion, fallible code
returns `Except String` carrying the Python exception kind, and external
collaborators (morphological tagger, embedding model, transport, unicode
lowercasing) are parameters.
-/

namespace Sberdemo

/-! ## Python string primitives -/

/-- Python `s.split(sep)` for a one-character separator: splits on every
occurrence, keeping empty fields (so `"".split(sep) == [""]`). -/
def chSplit (sep : Char) : List Char → List (List Char)
  | [] => [[]]
  | c :: rest =>
    match chSplit sep rest with
    | [] => if c = sep then [[], [c]] else [[c]]
    | h :: t => if c = sep then [] :: h :: t else (c :: h) :: t

/-- Field splitting by a character predicate, keeping empty fields. -/
def chSplitP (p : Char → Bool) : List Char → List (List Char)
  | [] => [[]]
  | c :: rest =>
    match chSplitP p rest with
    | [] => if p c then [[], [c]] else [[c]]
    | h :: t => if p c then [] :: h :: t else (c :: h) :: t

/-- Does `pat` occur at the head of `l`? -/
def chStartsWith : List Char → List Char → Bool
  | [], _ => true
  | _ :: _, [] => false
  | p :: ps, c :: cs => p = c && chStartsWith ps cs

/-- Python `s.replace(pat, rep)`: left-to-right, non-overlapping, all
occurrences.  Fuel-indexed so that it stays structurally recursive; the
callers pass the length of the subject string, which always suffices
because every step consumes at least one character. -/
def chReplaceF (pat rep : List Char) : Nat → List Char → List Char
  | _, [] => []
  | 0, l => l
  | f + 1, c :: cs =>
    if chStartsWith pat (c :: cs) && !pat.isEmpty then
      rep ++ chReplaceF pat rep f (List.drop (pat.length - 1) cs)
    else
      c :: chReplaceF pat rep f cs

/-- Python `s.strip()`: drop leading and trailing whitespace. -/
def chStrip (l : List Char) : List Char :=
  ((l.dropWhile Char.isWhitespace).reverse.dropWhile Char.isWhitespace).reverse

/-- Python `s.strip()` on `String`. -/
def pyStrip (s : String) : String := String.mk (chStrip s.toList)

/-- Python `s.split(sep)` on `String`, one-character separator. -/
def pySplitChar (sep : Char) (s : String) : List String :=
  (chSplit sep s.toList).map String.mk

/-- Python `s.split()` (no argument): split on whitespace runs, dropping
empty fields. -/
def pySplitWhite (s : String) : List String :=
  ((chSplitP Char.isWhitespace s.toList).filter (fun l => !l.isEmpty)).map String.mk

/-- Python `s.replace(pat, rep)` on `String`. -/
def pyReplace (pat rep s : String) : String :=
  String.mk (chReplaceF pat.toList rep.toList s.toList.length s.toList)

/-- Lookup in an association list (Python `d[k]` / `k in d`). -/
def alookup {β : Type} : List (String × β) → String → Option β
  | [], _ => none
  | (k, v) :: rest, key => if k = key then some v else alookup rest key

/-- Python `d[k] = v`: overwrite in place if the key exists (keeping its
position), otherwise append. -/
def pyInsert (d : List (String × String)) (k v : String) : List (String × String) :=
  match d with
  | [] => [(k, v)]
  | (k', v') :: rest => if k' = k then (k', v) :: rest else (k', v') :: pyInsert rest k v

/-! ## Data model: tokens and slots (`nlu.py`) -/

/-- A token-feature record, the Python dict
`{'_text': ..., '_vec': [...], 'normal': ..., 't_<tag>': 1, ...}`.
Per-token vectors are abstracted to a type `V` (numpy arrays are an
external collaborator). -/
structure Token (V : Type) where
  text : String
  vec : List V
  normal : Option String
  tags : List String
deriving Repr

/-- A slot as built by `read_slots_from_tsv`: the class name resolved via
`getattr`, the id and ask prompt, and the synonym dictionary
(surface form → canonical value). -/
structure PySlot where
  kind : String
  id : String
  ask_sentence : String
  dict : List (String × String)
deriving Repr, DecidableEq

/-- `DictionarySlot.infer` exactly as written in `nlu.py`: its body is
`pass`, so it returns `None` for every sentence, never consulting
`self.dict`. -/
def DictionarySlot_infer {V : Type} (slot : PySlot) (sentence : List (Token V)) :
    Option String :=
  none

/-- C1: the spec says `DictionarySlot.infer` looks each token's normalized
surface form up in the synonym dictionary, first match winning, returning
the canonical value.  Evaluating the code at the spec's own example — a
slot whose dictionary maps "евро" to "EUR" and a sentence containing a
token normalized to "евро" — the code returns `none`, even though the
dictionary has the match the spec promises would be returned. -/
theorem dictionary_slot_infer_ignores_dictionary :
    DictionarySlot_infer (V := Unit)
        ⟨"DictionarySlot", "currency", "Какая валюта?", [("евро", "EUR")]⟩
        [⟨"евро", [], some "евро", []⟩] = none
    ∧ alookup [("евро", "EUR")] "евро" = some "EUR" :=
  ⟨rfl, rfl⟩

/-! ## The slot table loader `read_slots_from_tsv` (`nlu.py`) -/

/-- Comma-separated synonym parsing from a value row's second cell:
`syns.replace(', ', ',').replace('“', '').replace('”', '').replace('"', '').split(',')`. -/
def parseSyns (ss : String) : List String :=
  pySplitChar ','
    (pyReplace "\"" "" (pyReplace "”" "" (pyReplace "“" "" (pyReplace ", " "," ss))))

/-- Parser state: `slot_name`/`slot_class`/`info_question` (all set together
by a header row, cleared together at block end, so bundled in one option),
the accumulating `slot_values` dict, and the finished `result_slots`. -/
structure ParserSt where
  header : Option (String × String × String)
  slot_values : List (String × String)
  result_slots : List PySlot
deriving Repr, DecidableEq

def parserInit : ParserSt := ⟨none, [], []⟩

/-- Which class names `getattr(sys.modules[__name__], slot_class)` followed
by `SlotClass(slot_name, info_question, slot_values)` resolves to a slot
constructor.  Any other module attribute fails (AttributeError or a
constructor signature mismatch). -/
def validSlotClass (c : String) : Bool :=
  c = "Slot" || c = "DictionarySlot" || c = "ClassifierSlot"

/-- The header-row branch: `first_cell, second_cell = line.split(D)`;
`slot_name, slot_class = first_cell.split()[0].split('.')`;
`info_question = second_cell.strip()`. -/
def stepHeader (l : String) : Except String (String × String × String) :=
  match pySplitChar '\t' l with
  | [c1, c2] =>
    match pySplitWhite c1 with
    | [] => .error "IndexError: list index out of range"
    | w :: _ =>
      match pySplitChar '.' w with
      | [n, c] => .ok (n, c, pyStrip c2)
      | _ => .error "ValueError: not enough values to unpack"
  | _ => .error "ValueError: not enough values to unpack"

/-- The value-row branch, on the already-stripped line: one cell inserts the
canonical value mapped to itself; two cells additionally map every parsed
synonym to the canonical value; any other cell count is
`raise Exception()`. -/
def processValueRow (d : List (String × String)) (l : String) :
    Except String (List (String × String)) :=
  match pySplitChar '\t' l with
  | [nn] => .ok (pyInsert d nn nn)
  | [nn, ss] => .ok ((parseSyns ss).foldl (fun a s => pyInsert a s nn) (pyInsert d nn nn))
  | _ => .error "Exception"

/-- One iteration of the `for line in f` loop of `read_slots_from_tsv`. -/
def step (st : ParserSt) (line : String) : Except String ParserSt :=
  let l := pyStrip line
  match st.header with
  | none => (stepHeader l).map (fun h => { st with header := some h })
  | some (name, cls, q) =>
    if l = "" then
      if validSlotClass cls then
        .ok ⟨none, [], st.result_slots ++ [⟨cls, name, q, st.slot_values⟩]⟩
      else .error "AttributeError"
    else
      (processValueRow st.slot_values l).map (fun d => { st with slot_values := d })

/-- Run the loop over the file's lines, an exception aborting the run. -/
def runLines (st : ParserSt) : List String → Except String ParserSt
  | [] => .ok st
  | l :: rest =>
    match step st l with
    | .ok st' => runLines st' rest
    | .error e => .error e

/-- `read_slots_from_tsv` on the file's lines: run the loop, then the final
`if slot_name:` flush (skipped when `slot_name` is `None` or empty, Python
truthiness). -/
def read_slots_lines (lines : List String) : Except String (List PySlot) :=
  match runLines parserInit lines with
  | .error e => .error e
  | .ok st =>
    match st.header with
    | none => .ok st.result_slots
    | some (name, cls, q) =>
      if name = "" then .ok st.result_slots
      else if validSlotClass cls then
        .ok (st.result_slots ++ [⟨cls, name, q, st.slot_values⟩])
      else .error "AttributeError"

/-- Fold `processValueRow` (with the per-line strip) over a list of rows. -/
def runRowsDict (d : List (String × String)) : List String → Except String (List (String × String))
  | [] => .ok d
  | r :: rest =>
    match processValueRow d (pyStrip r) with
    | .ok d' => runRowsDict d' rest
    | .error e => .error e

lemma runLines_append (st : ParserSt) (l1 l2 : List String) :
    runLines st (l1 ++ l2) =
      match runLines st l1 with
      | .ok st' => runLines st' l2
      | .error e => .error e := by
  induction l1 generalizing st with
  | nil => simp [runLines]
  | cons l rest ih =>
    simp only [List.cons_append, runLines]
    cases step st l with
    | ok st' => exact ih st'
    | error e => rfl

lemma processValueRow_long (d : List (String × String)) (l : String)
    (h : 2 < (pySplitChar '\t' l).length) :
    processValueRow d l = .error "Exception" := by
  unfold processValueRow
  rcases hs : pySplitChar '\t' l with _ | ⟨a, _ | ⟨b, _ | ⟨c, rest⟩⟩⟩ <;>
    simp [hs] at h ⊢ <;> omega

/-- C5: a value row (a row read while a slot block is open, non-blank after
stripping) with more than two tab-separated cells — i.e. more than one
delimiter-separated synonym field — aborts the whole load with the raised
exception, wherever it occurs in the file, rather than being reported per
request. -/
theorem malformed_value_row_is_fatal
    (pre post : List String) (row : String) (st : ParserSt)
    (h : String × String × String)
    (hpre : runLines parserInit pre = .ok st)
    (hhdr : st.header = some h)
    (hne : pyStrip row ≠ "")
    (hlen : 2 < (pySplitChar '\t' (pyStrip row)).length) :
    read_slots_lines (pre ++ row :: post) = .error "Exception" := by
  have hstep : step st row = .error "Exception" := by
    unfold step
    rw [hhdr]
    simp only [if_neg hne, processValueRow_long _ _ hlen]
    rfl
  unfold read_slots_lines
  rw [runLines_append, hpre]
  simp [runLines, hstep]

/-- C5 witness: a well-formed header followed by a three-cell value row is
rejected at load time. -/
theorem malformed_value_row_is_fatal_witness :
    read_slots_lines ["currency.DictionarySlot\tКакая валюта?", "EUR\tевро\teuro"] =
      .error "Exception" :=
  malformed_value_row_is_fatal
    ["currency.DictionarySlot\tКакая валюта?"] [] "EUR\tевро\teuro"
    ⟨some ("currency", "DictionarySlot", "Какая валюта?"), [], []⟩
    ("currency", "DictionarySlot", "Какая валюта?")
    rfl rfl (by decide) (by decide)

lemma alookup_pyInsert_self (d : List (String × String)) (k v : String) :
    alookup (pyInsert d k v) k = some v := by
  induction d with
  | nil => simp [pyInsert, alookup]
  | cons p rest ih =>
    obtain ⟨k', v'⟩ := p
    by_cases hk : k' = k
    · simp [pyInsert, hk, alookup]
    · simp [pyInsert, hk, alookup, ih]

lemma alookup_pyInsert_other (d : List (String × String)) (k v k' : String)
    (h : k' ≠ k) : alookup (pyInsert d k v) k' = alookup d k' := by
  induction d with
  | nil => simp [pyInsert, alookup, Ne.symm h]
  | cons p rest ih =>
    obtain ⟨k0, v0⟩ := p
    by_cases hk : k0 = k
    · subst hk
      simp [pyInsert, alookup, Ne.symm h]
    · by_cases hk' : k0 = k'
      · subst hk'
        simp [pyInsert, hk, alookup]
      · simp [pyInsert, hk, alookup, hk', ih]

lemma alookup_foldl_pyInsert (nn : String) (syns : List String) :
    ∀ (a : List (String × String)) (k : String),
      (alookup a k = some nn ∨ k ∈ syns) →
      alookup (syns.foldl (fun a s => pyInsert a s nn) a) k = some nn := by
  induction syns with
  | nil =>
    intro a k h
    simpa using h.elim id (by simp)
  | cons s rest ih =>
    intro a k h
    simp only [List.foldl_cons]
    apply ih
    by_cases hk : k = s
    · subst hk
      exact Or.inl (alookup_pyInsert_self a k nn)
    · rcases h with h | h
      · exact Or.inl ((alookup_pyInsert_other a s nn k hk).trans h)
      · rcases List.mem_cons.mp h with h' | h'
        · exact absurd h' hk
        · exact Or.inr h'

/-- The dictionary update produced by a two-cell value row. -/
def rowDict (d : List (String × String)) (nn ss : String) : List (String × String) :=
  (parseSyns ss).foldl (fun a s => pyInsert a s nn) (pyInsert d nn nn)

lemma runLines_block (rows : List String) :
    ∀ (st : ParserSt) (name cls q : String) (d : List (String × String)),
      st.header = some (name, cls, q) →
      validSlotClass cls = true →
      (∀ r ∈ rows, pyStrip r ≠ "") →
      runRowsDict st.slot_values rows = .ok d →
      runLines st (rows ++ [""]) =
        .ok ⟨none, [], st.result_slots ++ [⟨cls, name, q, d⟩]⟩ := by
  induction rows with
  | nil =>
    intro st name cls q d hhdr hcls _ hrows
    have hd : st.slot_values = d := by
      simpa [runRowsDict] using hrows
    subst hd
    simp [runLines, step, hhdr, pyStrip, chStrip, hcls]
  | cons r rest ih =>
    intro st name cls q d hhdr hcls hne hrows
    have hr : pyStrip r ≠ "" := hne r (List.mem_cons_self r rest)
    simp only [runRowsDict] at hrows
    cases hpv : processValueRow st.slot_values (pyStrip r) with
    | error e => rw [hpv] at hrows; exact absurd hrows (by simp)
    | ok d' =>
      rw [hpv] at hrows
      have hstep : step st r = .ok { st with slot_values := d' } := by
        unfold step
        rw [hhdr]
        simp [if_neg hr, hpv, Except.map]
      simp only [List.cons_append, runLines, hstep]
      exact ih { st with slot_values := d' } name cls q d hhdr hcls
        (fun x hx => hne x (List.mem_cons_of_mem r hx)) hrows

/-- C7: how `read_slots_from_tsv` builds each slot.  (a) A one-cell value
row maps the canonical value to itself.  (b) A two-cell value row maps the
canonical value to itself and every comma-separated, quote-stripped
variant to the canonical value, and afterwards both the canonical value
and every variant look up to the canonical value.  (c) A header row stores
slot id and slot class from the `slotId.slotClass` first cell and the
prompt from the (stripped) second cell.  (d) A whole block — header row,
well-formed value rows, blank terminator — appends exactly one slot built
from those pieces, with the dictionary accumulated row by row from the
empty dict, and resets the parser state. -/
theorem slot_blocks_build_synonym_dictionary :
    (∀ (d : List (String × String)) (l nn : String),
        pySplitChar '\t' l = [nn] →
        processValueRow d l = .ok (pyInsert d nn nn))
    ∧ (∀ (d : List (String × String)) (l nn ss : String),
        pySplitChar '\t' l = [nn, ss] →
        processValueRow d l = .ok (rowDict d nn ss)
        ∧ alookup (rowDict d nn ss) nn = some nn
        ∧ ∀ s ∈ parseSyns ss, alookup (rowDict d nn ss) s = some nn)
    ∧ (∀ (st : ParserSt) (line name cls q : String),
        st.header = none →
        stepHeader (pyStrip line) = .ok (name, cls, q) →
        step st line = .ok { st with header := some (name, cls, q) })
    ∧ (∀ (st : ParserSt) (hline : String) (rows : List String)
        (name cls q : String) (d : List (String × String)),
        st.header = none →
        stepHeader (pyStrip hline) = .ok (name, cls, q) →
        validSlotClass cls = true →
        (∀ r ∈ rows, pyStrip r ≠ "") →
        runRowsDict st.slot_values rows = .ok d →
        runLines st (hline :: (rows ++ [""])) =
          .ok ⟨none, [], st.result_slots ++ [⟨cls, name, q, d⟩]⟩) := by
  refine ⟨?_, ?_, ?_, ?_⟩
  · intro d l nn hsplit
    unfold processValueRow
    rw [hsplit]
  · intro d l nn ss hsplit
    refine ⟨?_, ?_, ?_⟩
    · unfold processValueRow
      rw [hsplit]
      rfl
    · exact alookup_foldl_pyInsert nn (parseSyns ss) _ nn
        (Or.inl (alookup_pyInsert_self d nn nn))
    · intro s hs
      exact alookup_foldl_pyInsert nn (parseSyns ss) _ s (Or.inr hs)
  · intro st line name cls q hhdr hh
    unfold step
    rw [hhdr]
    simp only []
    rw [hh]
    rfl
  · intro st hline rows name cls q d hhdr hh hcls hne hrows
    have hstep : step st hline = .ok { st with header := some (name, cls, q) } := by
      unfold step
      rw [hhdr]
      simp only []
      rw [hh]
      rfl
    simp only [runLines, hstep]
    exact runLines_block rows { st with header := some (name, cls, q) }
      name cls q d rfl hcls hne hrows

/-- C7 witness: a concrete two-row block (`EUR` with variants `"евро", euro`;
bare `RUB`) is parsed into one `DictionarySlot` with the expected id,
prompt, and synonym dictionary. -/
theorem slot_blocks_build_synonym_dictionary_witness :
    runLines parserInit
        ["currency.DictionarySlot\tКакая валюта?", "EUR\t\"евро\", euro", "RUB", ""] =
      .ok ⟨none, [],
        [⟨"DictionarySlot", "currency", "Какая валюта?",
          [("EUR", "EUR"), ("евро", "EUR"), ("euro", "EUR"), ("RUB", "RUB")]⟩]⟩ :=
  slot_blocks_build_synonym_dictionary.2.2.2 parserInit
    "currency.DictionarySlot\tКакая валюта?" ["EUR\t\"евро\", euro", "RUB"]
    "currency" "DictionarySlot" "Какая валюта?"
    [("EUR", "EUR"), ("евро", "EUR"), ("euro", "EUR"), ("RUB", "RUB")]
    rfl rfl rfl (by decide) rfl

/-! ## The route compiler `format_route` (`router.py`) -/

/-- JSON-like values as produced by `json.load` and rewritten in place by
`format_route`.  Objects keep insertion order; dict-comprehension keys may
be any value, so object keys are `JVal`s. -/
inductive JVal : Type where
  | null : JVal
  | bool : Bool → JVal
  | num : Int → JVal
  | str : String → JVal
  | arr : List JVal → JVal
  | obj : List (JVal × JVal) → JVal

/-- Python `==` on hashable (dict-key) values; lists and dicts are
unhashable and never occur as keys. -/
def scalarKeyEq : JVal → JVal → Bool
  | .null, .null => true
  | .bool a, .bool b => a = b
  | .num a, .num b => a = b
  | .str a, .str b => a = b
  | _, _ => false

/-- Python `"s" in d` for a dict. -/
def hasStrKey (fs : List (JVal × JVal)) (s : String) : Bool :=
  fs.any (fun p => scalarKeyEq p.1 (.str s))

/-- Python `d["s"]` for a dict (keys are unique in parsed JSON). -/
def getStrKey (fs : List (JVal × JVal)) (s : String) : Option JVal :=
  (fs.find? (fun p => scalarKeyEq p.1 (.str s))).map (fun p => p.2)

/-- Python `d["s"] = v`: replace in place, else append. -/
def setStrKey (fs : List (JVal × JVal)) (s : String) (v : JVal) : List (JVal × JVal) :=
  match fs with
  | [] => [(.str s, v)]
  | p :: rest =>
    if scalarKeyEq p.1 (.str s) then (p.1, v) :: rest
    else p :: setStrKey rest s v

/-- Python iteration over the value of `relevant_slots`: lists yield their
elements, strings their characters, dicts their keys; other values raise
TypeError. -/
def pyIter : JVal → Option (List JVal)
  | .arr xs => some xs
  | .str s => some (s.toList.map (fun c => .str (String.mk [c])))
  | .obj fs => some (fs.map (fun p => p.1))
  | _ => none

/-- One key of the comprehension `{slot: None for slot in ...}`: duplicate
keys collapse onto the first occurrence; unhashable keys raise TypeError. -/
def compInsert (d : List (JVal × JVal)) (k : JVal) : Option (List (JVal × JVal)) :=
  match k with
  | .arr _ => none
  | .obj _ => none
  | _ => some (if d.any (fun p => scalarKeyEq p.1 k) then d else d ++ [(k, .null)])

/-- Threading of the dict comprehension over the remaining keys. -/
def pyDictOfKeysAux (d : List (JVal × JVal)) : List JVal → Option (List (JVal × JVal))
  | [] => some d
  | k :: rest =>
    match compInsert d k with
    | none => none
    | some d' => pyDictOfKeysAux d' rest

/-- The dict comprehension `{slot: None for slot in keys}`. -/
def pyDictOfKeys (keys : List JVal) : Option (List (JVal × JVal)) :=
  pyDictOfKeysAux [] keys

mutual

/-- `format_route` from `router.py`, rewriting each step of a raw route
list in place; `none` models an uncaught TypeError from the
`relevant_slots` comprehension. -/
def format_route : List JVal → Option (List JVal)
  | [] => some []
  | x :: rest =>
    match format_item x with
    | none => none
    | some x' =>
      match format_route rest with
      | none => none
      | some rest' => some (x' :: rest')

/-- One step of the loop body of `format_route`: nested lists recurse, bare
strings become `{"slot": s, "condition": "any"}`, dicts with an `action`
key have `relevant_slots` (when present) replaced by the comprehension
dict, other single-key dicts `{key: val}` become
`{"slot": val, "condition": key}`, and everything else is untouched. -/
def format_item : JVal → Option JVal
  | .arr xs =>
    match format_route xs with
    | none => none
    | some xs' => some (.arr xs')
  | .str s => some (.obj [(.str "slot", .str s), (.str "condition", .str "any")])
  | .obj fs =>
    if hasStrKey fs "action" then
      if hasStrKey fs "relevant_slots" then
        match getStrKey fs "relevant_slots" with
        | none => none
        | some v =>
          match pyIter v with
          | none => none
          | some keys =>
            match pyDictOfKeys keys with
            | none => none
            | some d => some (.obj (setStrKey fs "relevant_slots" (.obj d)))
      else some (.obj fs)
    else if fs.length = 1 then
      match fs with
      | [(k, v)] => some (.obj [(.str "slot", v), (.str "condition", k)])
      | _ => some (.obj fs)
    else some (.obj fs)
  | .null => some .null
  | .bool b => some (.bool b)
  | .num n => some (.num n)

end

lemma compInsert_scalar {d d' : List (JVal × JVal)} {k : JVal}
    (h : compInsert d k = some d') : scalarKeyEq k k = true := by
  cases k <;> simp [compInsert, scalarKeyEq] at h ⊢

lemma compInsert_eq {d d' : List (JVal × JVal)} {k : JVal}
    (h : compInsert d k = some d') :
    d' = if d.any (fun p => scalarKeyEq p.1 k) then d else d ++ [(k, .null)] := by
  cases k <;> simp [compInsert] at h <;> exact h.symm

lemma pyDictOfKeysAux_spec :
    ∀ (keys : List JVal) (d0 d : List (JVal × JVal)),
      pyDictOfKeysAux d0 keys = some d →
      (∀ p ∈ d0, p.2 = JVal.null) →
      (∀ p ∈ d, p.2 = JVal.null)
      ∧ (∀ k, d0.any (fun p => scalarKeyEq p.1 k) = true →
          d.any (fun p => scalarKeyEq p.1 k) = true)
      ∧ (∀ k ∈ keys, d.any (fun p => scalarKeyEq p.1 k) = true) := by
  intro keys
  induction keys with
  | nil =>
    intro d0 d h hnull
    have hd : d0 = d := by simpa [pyDictOfKeysAux] using h
    subst hd
    exact ⟨hnull, fun _ h => h, by simp⟩
  | cons k rest ih =>
    intro d0 d h hnull
    simp only [pyDictOfKeysAux] at h
    cases hc : compInsert d0 k with
    | none => rw [hc] at h; exact absurd h (by simp)
    | some d1 =>
      rw [hc] at h
      have hd1 : ∀ p ∈ d1, p.2 = JVal.null := by
        rw [compInsert_eq hc]
        by_cases hany : d0.any (fun p => scalarKeyEq p.1 k) = true
        · simpa [hany] using hnull
        · intro p hp
          simp only [Bool.not_eq_true] at hany
          rw [if_neg (by simp [hany])] at hp
          rcases List.mem_append.mp hp with hp | hp
          · exact hnull p hp
          · simpa using List.mem_singleton.mp hp ▸ rfl
      have hmono : ∀ k', d0.any (fun p => scalarKeyEq p.1 k') = true →
          d1.any (fun p => scalarKeyEq p.1 k') = true := by
        intro k' hk'
        rw [compInsert_eq hc]
        by_cases hany : d0.any (fun p => scalarKeyEq p.1 k) = true
        · simpa [hany] using hk'
        · simp only [Bool.not_eq_true] at hany
          rw [if_neg (by simp [hany])]
          simp [List.any_append, hk']
      obtain ⟨ha, hb, hrest⟩ := ih d1 d h hd1
      refine ⟨ha, fun k' hk' => hb k' (hmono k' hk'), ?_⟩
      intro k' hk'
      rcases List.mem_cons.mp hk' with hk' | hk'
      · subst hk'
        apply hb
        rw [compInsert_eq hc]
        by_cases hany : d0.any (fun p => scalarKeyEq p.1 k') = true
        · simpa [hany] using hany
        · simp only [Bool.not_eq_true] at hany
          rw [if_neg (by simp [hany])]
          simp [List.any_append, compInsert_scalar hc]
      · exact hrest k' hk'

lemma getStrKey_some_has {fs : List (JVal × JVal)} {s : String} {v : JVal}
    (h : getStrKey fs s = some v) : hasStrKey fs s = true := by
  induction fs with
  | nil => simp [getStrKey] at h
  | cons p rest ih =>
    by_cases hp : scalarKeyEq p.1 (.str s) = true
    · simp [hasStrKey, hp]
    · simp only [getStrKey, List.find?] at h
      rw [Bool.not_eq_true] at hp
      rw [hp] at h
      simp only [hasStrKey, List.any_cons, hp, Bool.false_or]
      exact ih h

/-- C3: `format_route` preserves the number and order of steps (each output
step is the rewrite of the input step at the same index); a bare string
step becomes an ask step with condition `"any"`; a single-key object
`{condition: slotId}` becomes an ask step with that slot and that
condition; an object with an `action` key whose `relevant_slots` is a list
gets that list replaced by the comprehension dict, in which every listed
slot is initialized to the unfilled marker `None`; and nested lists are
normalized recursively. -/
theorem format_route_normalizes_steps :
    (∀ (route route' : List JVal), format_route route = some route' →
        route'.length = route.length
        ∧ ∀ i : Nat, route'.get? i = (route.get? i).bind format_item)
    ∧ (∀ s : String, format_item (.str s) =
        some (.obj [(.str "slot", .str s), (.str "condition", .str "any")]))
    ∧ (∀ (c : String) (v : JVal), c ≠ "action" →
        format_item (.obj [(.str c, v)]) =
          some (.obj [(.str "slot", v), (.str "condition", .str c)]))
    ∧ (∀ (fs : List (JVal × JVal)) (slots : List JVal) (d : List (JVal × JVal)),
        hasStrKey fs "action" = true →
        getStrKey fs "relevant_slots" = some (.arr slots) →
        pyDictOfKeys slots = some d →
        format_item (.obj fs) = some (.obj (setStrKey fs "relevant_slots" (.obj d))))
    ∧ (∀ (keys : List JVal) (d : List (JVal × JVal)),
        pyDictOfKeys keys = some d →
        (∀ p ∈ d, p.2 = JVal.null)
        ∧ ∀ k ∈ keys, d.any (fun p => scalarKeyEq p.1 k) = true)
    ∧ (∀ xs : List JVal, format_item (.arr xs) = (format_route xs).map JVal.arr) := by
  refine ⟨?_, ?_, ?_, ?_, ?_, ?_⟩
  · intro route
    induction route with
    | nil =>
      intro route' h
      have : route' = [] := by simpa [format_route] using h.symm
      subst this
      simp
    | cons x rest ih =>
      intro route' h
      simp only [format_route] at h
      cases hx : format_item x with
      | none => rw [hx] at h; exact absurd h (by simp)
      | some x' =>
        rw [hx] at h
        cases hr : format_route rest with
        | none => rw [hr] at h; exact absurd h (by simp)
        | some rest' =>
          rw [hr] at h
          have : route' = x' :: rest' := by simpa using h.symm
          subst this
          obtain ⟨hlen, hget⟩ := ih rest' hr
          refine ⟨by simp [hlen], ?_⟩
          intro i
          cases i with
          | zero => simp [hx]
          | succ j => simpa using hget j
  · intro s
    rfl
  · intro c v h
    simp [format_item, hasStrKey, scalarKeyEq, h]
  · intro fs slots d hact hget hdict
    have hhas := getStrKey_some_has hget
    simp only [format_item, hact, if_true, hhas, hget, pyIter, hdict]
  · intro keys d h
    obtain ⟨ha, _, hc⟩ := pyDictOfKeysAux_spec keys [] d h (by simp)
    exact ⟨ha, hc⟩
  · intro xs
    simp only [format_item]
    cases format_route xs <;> rfl

/-- C3 witness: the spec's example route
`["slot_a", {"cond": "slot_b"}, {"action": "do_x", "relevant_slots": ["slot_c"]}]`
rewrites, preserving order, to the ask/ask/action steps with `slot_c`
initialized to unfilled; the instantiated instances of the per-case rules
agree with it. -/
theorem format_route_normalizes_steps_witness :
    format_item (.obj [(.str "cond", .str "slot_b")]) =
      some (.obj [(.str "slot", .str "slot_b"), (.str "condition", .str "cond")])
    ∧ format_item (.obj [(.str "action", .str "do_x"),
        (.str "relevant_slots", .arr [.str "slot_c"])]) =
      some (.obj [(.str "action", .str "do_x"),
        (.str "relevant_slots", .obj [(.str "slot_c", .null)])])
    ∧ format_route [.str "slot_a", .obj [(.str "cond", .str "slot_b")],
        .obj [(.str "action", .str "do_x"), (.str "relevant_slots", .arr [.str "slot_c"])]] =
      some [.obj [(.str "slot", .str "slot_a"), (.str "condition", .str "any")],
        .obj [(.str "slot", .str "slot_b"), (.str "condition", .str "cond")],
        .obj [(.str "action", .str "do_x"),
          (.str "relevant_slots", .obj [(.str "slot_c", .null)])]] :=
  ⟨format_route_normalizes_steps.2.2.1 "cond" (.str "slot_b") (by decide),
   format_route_normalizes_steps.2.2.2.1
     [(.str "action", .str "do_x"), (.str "relevant_slots", .arr [.str "slot_c"])]
     [.str "slot_c"] [(.str "slot_c", .null)] rfl rfl rfl,
   rfl⟩

/-! ## Feature-generator stages and `Pipeline.feed` (`nlu.py`) -/

/-- Dict-key update for the `'t_<tag>': 1` attributes: setting an existing
key overwrites (same value 1), a new key is appended. -/
def addTags (ks : List String) (ts : List String) : List String :=
  ts.foldl (fun a t => if a.contains t then a else a ++ [t]) ks

/-- The loop body of `PyMorphyPreproc.process`: the morphological
collaborator `morph` gives the top-ranked parse as (normal form, tag
string); the token gets `normal` (with `ё` unified to `е`), the `t_<tag>`
attributes from the comma/space-separated tag string, and, when
`vectorize` is set, the grammeme indicator vector (built by `tagvec`, the
numpy-array collaborator) appended to `_vec`. -/
def pymorphy_token {V : Type} (morph : String → String × String) (vectorize : Bool)
    (tagvec : List String → V) (w : Token V) : Token V :=
  let p := morph w.text
  let ts := pySplitChar ',' (pyReplace " " "," p.2)
  { w with
    normal := some (pyReplace "ё" "е" p.1)
    tags := addTags w.tags ts
    vec := if vectorize then w.vec ++ [tagvec ts] else w.vec }

/-- `PyMorphyPreproc.process`: builds `res` by appending the updated token
for each input token in order. -/
def pymorphy_process {V : Type} (morph : String → String × String) (vectorize : Bool)
    (tagvec : List String → V) : List (Token V) → List (Token V)
  | [] => []
  | w :: rest => pymorphy_token morph vectorize tagvec w ::
      pymorphy_process morph vectorize tagvec rest

/-- The loop body of `Lower.process`: `w['_text'] = w['_text'].lower()`
(`lowerFn` is Python's Unicode `str.lower`). -/
def lower_token {V : Type} (lowerFn : String → String) (w : Token V) : Token V :=
  { w with text := lowerFn w.text }

/-- `Lower.process`. -/
def lower_process {V : Type} (lowerFn : String → String) :
    List (Token V) → List (Token V)
  | [] => []
  | w :: rest => lower_token lowerFn w :: lower_process lowerFn rest

/-- The loop body of `Fasttext.process`:
`w['_vec'].append(self.model[w['_text']])`. -/
def fasttext_token {V : Type} (model : String → V) (w : Token V) : Token V :=
  { w with vec := w.vec ++ [model w.text] }

/-- `Fasttext.process` (returns the same tokens, each with its embedding
appended). -/
def fasttext_process {V : Type} (model : String → V) :
    List (Token V) → List (Token V)
  | [] => []
  | w :: rest => fasttext_token model w :: fasttext_process model rest

lemma pymorphy_process_eq_map {V : Type} (morph : String → String × String)
    (vectorize : Bool) (tagvec : List String → V) (ws : List (Token V)) :
    pymorphy_process morph vectorize tagvec ws =
      ws.map (pymorphy_token morph vectorize tagvec) := by
  induction ws with
  | nil => rfl
  | cons w rest ih => simp [pymorphy_process, ih]

lemma lower_process_eq_map {V : Type} (lowerFn : String → String)
    (ws : List (Token V)) :
    lower_process lowerFn ws = ws.map (lower_token lowerFn) := by
  induction ws with
  | nil => rfl
  | cons w rest ih => simp [lower_process, ih]

lemma fasttext_process_eq_map {V : Type} (model : String → V) (ws : List (Token V)) :
    fasttext_process model ws = ws.map (fasttext_token model) := by
  induction ws with
  | nil => rfl
  | cons w rest ih => simp [fasttext_process, ih]

/-- C6: every feature-generator stage maps the input token list
position-for-position — the output has the same length, and the token at
index `i` of the output is exactly the attribute-updated token at index
`i` of the input, for all collaborators and all inputs; no stage reorders,
drops, or invents tokens. -/
theorem feature_stages_preserve_tokens {V : Type}
    (morph : String → String × String) (vectorize : Bool) (tagvec : List String → V)
    (lowerFn : String → String) (model : String → V) (ws : List (Token V)) :
    ((pymorphy_process morph vectorize tagvec ws).length = ws.length
      ∧ ∀ i : Nat, (pymorphy_process morph vectorize tagvec ws).get? i =
          (ws.get? i).map (pymorphy_token morph vectorize tagvec))
    ∧ ((lower_process lowerFn ws).length = ws.length
      ∧ ∀ i : Nat, (lower_process lowerFn ws).get? i =
          (ws.get? i).map (lower_token lowerFn))
    ∧ ((fasttext_process model ws).length = ws.length
      ∧ ∀ i : Nat, (fasttext_process model ws).get? i =
          (ws.get? i).map (fasttext_token model)) := by
  refine ⟨⟨?_, ?_⟩, ⟨?_, ?_⟩, ⟨?_, ?_⟩⟩ <;>
    simp [pymorphy_process_eq_map, lower_process_eq_map, fasttext_process_eq_map,
      List.get?_map]

/-! ## `Pipeline.feed` and its memoization (`nlu.py`) -/

/-- The pipeline object: sentence and word tokenizers, the ordered
feature-generator stages, and the aggregating embedder (collaborators). -/
structure Pipeline (V E : Type) where
  sent_tokenizer : String → List String
  word_tokenizer : String → List String
  feature_gens : List (List (Token V) → List (Token V))
  embedder : List (List V) → E

/-- `for fg in self.feature_gens: ws = fg.process(ws)`. -/
def applyFeatureGens {V : Type} (gens : List (List (Token V) → List (Token V)))
    (ws : List (Token V)) : List (Token V) :=
  gens.foldl (fun ws fg => fg ws) ws

/-- The body of `Pipeline.feed`: split into sentences, each sentence into
fresh `{'_text': w, '_vec': []}` tokens, run the stages over each
sentence's tokens, concatenate (`words.extend`), and return the aggregate
embedding of the per-token vectors together with the tokens. -/
def feed_compute {V E : Type} (p : Pipeline V E) (raw_input : String) :
    E × List (Token V) :=
  let words := (p.sent_tokenizer raw_input).foldl
    (fun acc s => acc ++ applyFeatureGens p.feature_gens
      ((p.word_tokenizer s).map (fun w => ⟨w, [], none, []⟩))) []
  (p.embedder (words.map (fun w => w.vec)), words)

/-- `@lru_cache` around `feed`: on a hit return the cached result without
touching the pipeline; on a miss run `feed_compute` and cache the result.
The Bool records whether the stages were (re-)run on this call. -/
def feed_memo {V E : Type} (p : Pipeline V E)
    (cache : List (String × (E × List (Token V)))) (raw_input : String) :
    (E × List (Token V)) × List (String × (E × List (Token V))) × Bool :=
  match alookup cache raw_input with
  | some r => (r, cache, false)
  | none =>
    let r := feed_compute p raw_input
    (r, (raw_input, r) :: cache, true)

/-- C4: calling `feed` a second time with the identical text, from the
cache state the first call left, returns exactly the first call's result
(embedding and token sequence value-equal), leaves the cache unchanged,
and does not re-run the tokenizers or any feature-generator stage (the
recompute flag is false) — for every pipeline, prior cache, and text. -/
theorem pipeline_feed_memoized {V E : Type} (p : Pipeline V E)
    (cache : List (String × (E × List (Token V)))) (raw_input : String) :
    (feed_memo p (feed_memo p cache raw_input).2.1 raw_input).1 =
        (feed_memo p cache raw_input).1
    ∧ (feed_memo p (feed_memo p cache raw_input).2.1 raw_input).2.2 = false
    ∧ (feed_memo p (feed_memo p cache raw_input).2.1 raw_input).2.1 =
        (feed_memo p cache raw_input).2.1 := by
  cases h : alookup cache raw_input with
  | some r => simp [feed_memo, h]
  | none => simp [feed_memo, h, alookup]

/-! ## Paced reply delivery: `send_delayed` (`router.py`)

The transport collaborator `bot.send_message` is a function
`tr : String → Except String Unit`; `Except.error e` models the call
raising with message `str(e)`.  Time is discrete: a call scheduled by
`threading.Timer(interval, ...)` runs `interval` ticks after the call that
armed it (send duration is idealized to zero, a lower bound on the real
spacing). -/

/-- One message handed to the transport: when it was attempted, its text,
and whether the transport accepted it (i.e. the user received it). -/
structure SendEvent where
  time : Nat
  text : String
  delivered : Bool
deriving Repr, DecidableEq

/-- The full run of `send_delayed` from one initial call: pop the first
message (IndexError on an empty list), try to send it; if that raises,
log and send `'bot.send ERROR: ' + str(e)` instead — this second send is
outside the `try`, so if it raises too the exception escapes and no timer
is armed; otherwise, if messages remain, re-arm the timer after
`interval`.  Returns the transport events in order plus the uncaught
exception, if any. -/
def send_delayed_exec (tr : String → Except String Unit) (interval : Nat) :
    Nat → List String → List SendEvent × Option String
  | _, [] => ([], some "IndexError: pop from empty list")
  | t, m :: rest =>
    match tr m with
    | .ok _ =>
      match rest with
      | [] => ([⟨t, m, true⟩], none)
      | _ :: _ =>
        let r := send_delayed_exec tr interval (t + interval) rest
        (⟨t, m, true⟩ :: r.1, r.2)
    | .error e =>
      match tr ("bot.send ERROR: " ++ e) with
      | .ok _ =>
        match rest with
        | [] => ([⟨t, m, false⟩, ⟨t, "bot.send ERROR: " ++ e, true⟩], none)
        | _ :: _ =>
          let r := send_delayed_exec tr interval (t + interval) rest
          (⟨t, m, false⟩ :: ⟨t, "bot.send ERROR: " ++ e, true⟩ :: r.1, r.2)
      | .error e2 =>
        ([⟨t, m, false⟩, ⟨t, "bot.send ERROR: " ++ e, false⟩], some e2)

/-- A single invocation of `send_delayed` in isolation: the transport
events it produces, the caller's list after the in-place `pop(0)`, whether
the timer was re-armed, and the uncaught exception, if any. -/
def send_delayed_once (tr : String → Except String Unit) (t : Nat) :
    List String → List SendEvent × List String × Bool × Option String
  | [] => ([], [], false, some "IndexError: pop from empty list")
  | m :: rest =>
    match tr m with
    | .ok _ => ([⟨t, m, true⟩], rest, !rest.isEmpty, none)
    | .error e =>
      match tr ("bot.send ERROR: " ++ e) with
      | .ok _ => ([⟨t, m, false⟩, ⟨t, "bot.send ERROR: " ++ e, true⟩],
          rest, !rest.isEmpty, none)
      | .error e2 => ([⟨t, m, false⟩, ⟨t, "bot.send ERROR: " ++ e, false⟩],
          rest, false, some e2)

/-- C10: `send_delayed` unconditionally pops the first element, so on the
empty list every call raises IndexError before anything is sent; on a
non-empty list the first transport call always carries the head message,
and the caller's list is left holding exactly the tail. -/
theorem send_delayed_pops_first_message :
    (∀ (tr : String → Except String Unit) (t : Nat),
        send_delayed_once tr t [] =
          ([], [], false, some "IndexError: pop from empty list"))
    ∧ (∀ (tr : String → Except String Unit) (t : Nat) (m : String) (ms : List String),
        ((send_delayed_once tr t (m :: ms)).1.head?).map SendEvent.text = some m
        ∧ (send_delayed_once tr t (m :: ms)).2.1 = ms) := by
  refine ⟨fun tr t => rfl, fun tr t m ms => ?_⟩
  simp only [send_delayed_once]
  cases h1 : tr m with
  | ok u => simp
  | error e =>
    cases h2 : tr ("bot.send ERROR: " ++ e) with
    | ok u => simp [h2]
    | error e2 => simp [h2]

/-- The trace `send_delayed` produces when every transport call succeeds:
one delivered event per message, paced `interval` apart. -/
def pacedTrace (interval : Nat) : Nat → List String → List SendEvent
  | _, [] => []
  | t, m :: rest => ⟨t, m, true⟩ :: pacedTrace interval (t + interval) rest

lemma send_delayed_exec_cons_ok (tr : String → Except String Unit)
    (interval t : Nat) (m : String) (rest : List String)
    (h : tr m = .ok ()) (hrest : rest ≠ []) :
    send_delayed_exec tr interval t (m :: rest) =
      (⟨t, m, true⟩ :: (send_delayed_exec tr interval (t + interval) rest).1,
        (send_delayed_exec tr interval (t + interval) rest).2) := by
  cases rest with
  | nil => exact absurd rfl hrest
  | cons a b => simp only [send_delayed_exec, h]

lemma send_delayed_exec_all_ok (tr : String → Except String Unit) (interval : Nat)
    (htr : ∀ s, tr s = .ok ()) :
    ∀ (msgs : List String) (t : Nat), msgs ≠ [] →
      send_delayed_exec tr interval t msgs = (pacedTrace interval t msgs, none) := by
  intro msgs
  induction msgs with
  | nil => intro t h; exact absurd rfl h
  | cons m rest ih =>
    intro t _
    cases rest with
    | nil => simp [send_delayed_exec, htr m, pacedTrace]
    | cons m2 rest2 =>
      rw [send_delayed_exec_cons_ok tr interval t m (m2 :: rest2) (htr m) (by simp),
        ih (t + interval) (by simp)]
      simp [pacedTrace]

lemma pacedTrace_length (interval : Nat) :
    ∀ (msgs : List String) (t : Nat),
      (pacedTrace interval t msgs).length = msgs.length := by
  intro msgs
  induction msgs with
  | nil => intro t; rfl
  | cons m rest ih => intro t; simp [pacedTrace, ih]

lemma pacedTrace_text (interval : Nat) :
    ∀ (msgs : List String) (t : Nat),
      (pacedTrace interval t msgs).map SendEvent.text = msgs := by
  intro msgs
  induction msgs with
  | nil => intro t; rfl
  | cons m rest ih => intro t; simp [pacedTrace, ih]

lemma pacedTrace_time (interval : Nat) :
    ∀ (msgs : List String) (t : Nat) (i : Nat), i < msgs.length →
      ((pacedTrace interval t msgs).get? i).map SendEvent.time =
        some (t + interval * i) := by
  intro msgs
  induction msgs with
  | nil => intro t i h; simp at h
  | cons m rest ih =>
    intro t i h
    cases i with
    | zero => simp [pacedTrace]
    | succ j =>
      have := ih (t + interval) j (by simpa using h)
      simp only [pacedTrace, List.get?_cons_succ]
      rw [this]
      congr 1
      ring

/-- C8: for every non-empty reply list and a transport that accepts every
message, `send_delayed` raises nothing, delivers exactly the replies in
list order, sends the first one immediately at the initial time, and every
later reply goes out exactly one pacing interval after its predecessor —
so consecutive sends are separated by at least the pacing interval. -/
theorem send_delayed_paces_messages (tr : String → Except String Unit)
    (interval t0 : Nat) (msgs : List String)
    (htr : ∀ s, tr s = .ok ()) (hne : msgs ≠ []) :
    (send_delayed_exec tr interval t0 msgs).2 = none
    ∧ (send_delayed_exec tr interval t0 msgs).1.map SendEvent.text = msgs
    ∧ ((send_delayed_exec tr interval t0 msgs).1.head?).map SendEvent.time = some t0
    ∧ ∀ (i t1 t2 : Nat),
        (((send_delayed_exec tr interval t0 msgs).1.get? i).map SendEvent.time = some t1) →
        (((send_delayed_exec tr interval t0 msgs).1.get? (i + 1)).map SendEvent.time = some t2) →
        t2 = t1 + interval ∧ t1 + interval ≤ t2 := by
  rw [send_delayed_exec_all_ok tr interval htr msgs t0 hne]
  have hlen : (pacedTrace interval t0 msgs).length = msgs.length :=
    pacedTrace_length interval msgs t0
  refine ⟨rfl, pacedTrace_text interval msgs t0, ?_, ?_⟩
  · cases msgs with
    | nil => exact absurd rfl hne
    | cons m rest => simp [pacedTrace]
  · intro i t1 t2 h1 h2
    have hi2 : i + 1 < msgs.length := by
      by_contra hc
      rw [List.get?_eq_none.mpr (by rw [hlen]; omega)] at h2
      simp at h2
    have hi1 : i < msgs.length := by omega
    rw [pacedTrace_time interval msgs t0 i hi1] at h1
    rw [pacedTrace_time interval msgs t0 (i + 1) hi2] at h2
    have e1 : t1 = t0 + interval * i := by simpa using h1.symm
    have e2 : t2 = t0 + interval * (i + 1) := by simpa using h2.symm
    subst e1; subst e2
    constructor <;> ring_nf <;> omega

/-- C8 witness: three replies at interval 7 from time 0 go out at 0, 7, 14
in order, all delivered, nothing raised. -/
theorem send_delayed_paces_messages_witness :
    (send_delayed_exec (fun _ => Except.ok ()) 7 0 ["a", "b", "c"]).2 = none
    ∧ (send_delayed_exec (fun _ => Except.ok ()) 7 0 ["a", "b", "c"]).1.map
        SendEvent.text = ["a", "b", "c"]
    ∧ ((send_delayed_exec (fun _ => Except.ok ()) 7 0 ["a", "b", "c"]).1.head?).map
        SendEvent.time = some 0 :=
  have h := send_delayed_paces_messages (fun _ => Except.ok ()) 7 0 ["a", "b", "c"]
    (fun _ => rfl) (by decide)
  ⟨h.1, h.2.1, h.2.2.1⟩

/-- C2 counterexample, both failure paths at concrete inputs.  With a
transport that raises `"boom"` on the reply `"hi"`, `send_delayed` sends
the user the text `"bot.send ERROR: " ++ "boom"` — the raw internal
exception text is delivered to the user, contradicting "without exposing
the internal error to the user".  And with a transport that raises
`"down"` on every call, the run ends with the exception uncaught, no
message is delivered at all, and the remaining reply `"bye"` is never
attempted — contradicting "when sending a reply raises, the failure is
resolved into a textual reply so the conversation can continue". -/
theorem send_failure_exposes_internal_error :
    (send_delayed_exec
        (fun s => if s = "hi" then Except.error "boom" else Except.ok ()) 7 0
        ["hi"]).1 =
      [⟨0, "hi", false⟩, ⟨0, "bot.send ERROR: " ++ "boom", true⟩]
    ∧ List.IsInfix "boom".toList ("bot.send ERROR: " ++ "boom").toList
    ∧ send_delayed_exec (fun _ => Except.error "down") 7 0 ["hi", "bye"] =
        ([⟨0, "hi", false⟩, ⟨0, "bot.send ERROR: " ++ "down", false⟩], some "down")
    ∧ ∀ ev ∈ (send_delayed_exec (fun _ => Except.error "down") 7 0
        ["hi", "bye"]).1, ev.delivered = false := by
  exact ⟨rfl, by decide, rfl, by decide⟩

/-- C2, amended: when sending a reply raises, the error is logged and a
fallback textual reply `'bot.send ERROR: ' + str(e)` — embedding the
internal error text rather than hiding it — is attempted in its place.
If the transport accepts the fallback, the conversation continues: the
remaining replies are still processed.  If the fallback send itself
raises, the exception escapes uncaught, no textual reply is delivered for
that failure, and the remaining replies are dropped. -/
theorem send_failure_resolves_to_textual_reply :
    (∀ (tr : String → Except String Unit) (interval t : Nat) (m e : String)
        (rest : List String),
        tr m = .error e →
        tr ("bot.send ERROR: " ++ e) = .ok () →
        ((send_delayed_exec tr interval t (m :: rest)).1.get? 0 = some ⟨t, m, false⟩)
        ∧ ((send_delayed_exec tr interval t (m :: rest)).1.get? 1 =
            some ⟨t, "bot.send ERROR: " ++ e, true⟩)
        ∧ ((send_delayed_exec tr interval t (m :: rest)).1.drop 2 =
            (match rest with
              | [] => []
              | _ :: _ => (send_delayed_exec tr interval (t + interval) rest).1))
        ∧ ((send_delayed_exec tr interval t (m :: rest)).2 =
            (match rest with
              | [] => none
              | _ :: _ => (send_delayed_exec tr interval (t + interval) rest).2)))
    ∧ (∀ (tr : String → Except String Unit) (interval t : Nat) (m e e2 : String)
        (rest : List String),
        tr m = .error e →
        tr ("bot.send ERROR: " ++ e) = .error e2 →
        send_delayed_exec tr interval t (m :: rest) =
          ([⟨t, m, false⟩, ⟨t, "bot.send ERROR: " ++ e, false⟩], some e2)) := by
  constructor
  · intro tr interval t m e rest hm hfb
    cases rest with
    | nil => simp [send_delayed_exec, hm, hfb]
    | cons m2 rest2 => simp [send_delayed_exec, hm, hfb]
  · intro tr interval t m e e2 rest hm hfb
    cases rest with
    | nil => simp [send_delayed_exec, hm, hfb]
    | cons m2 rest2 => simp [send_delayed_exec, hm, hfb]

/-- C2 amended-claim witness: a transport failing only on `"hi"` delivers
the fallback reply and goes on to the trailing message, while an
always-failing transport makes the one-message run end with the uncaught
exception and two undelivered attempts. -/
theorem send_failure_resolves_to_textual_reply_witness :
    ((send_delayed_exec
        (fun s => if s = "hi" then Except.error "X" else Except.ok ()) 7 0
        ["hi", "bye"]).1.get? 0 = some ⟨0, "hi", false⟩)
    ∧ ((send_delayed_exec
        (fun s => if s = "hi" then Except.error "X" else Except.ok ()) 7 0
        ["hi", "bye"]).1.get? 1 = some ⟨0, "bot.send ERROR: " ++ "X", true⟩)
    ∧ send_delayed_exec (fun _ => Except.error "Y") 7 0 ["hi"] =
        ([⟨0, "hi", false⟩, ⟨0, "bot.send ERROR: " ++ "Y", false⟩], some "Y") :=
  have hA := send_failure_resolves_to_textual_reply.1
    (fun s => if s = "hi" then Except.error "X" else Except.ok ()) 7 0 "hi" "X"
    ["bye"] rfl rfl
  have hB := send_failure_resolves_to_textual_reply.2
    (fun _ => Except.error "Y") 7 0 "hi" "Y" "Y" [] rfl rfl
  ⟨hA.1, hA.2.1, hB⟩

/-! ## Per-user turn serialization (`router.py` `user_client`)

Modelled from the spec: the promise implementation chained by
`dialog.promise = dialog.promise.then(...).then(...)` lives in `dialog.py`,
which only `router.py`'s call sites show.  Per the spec, each user's turns
form a private sequential continuation chain: turn n+1 of a user may start
only once turn n has finished, while turns of distinct users are
unconstrained.  Users are chat ids (naturals); an execution is a list of
start/finish events, and a step is enabled exactly when the chain allows
it. -/

/-- A turn lifecycle event of one user's chain. -/
inductive TurnEv : Type where
  | start : Nat → TurnEv
  | finish : Nat → TurnEv
deriving Repr, DecidableEq

/-- Scheduler state: how many turns each user has started and finished. -/
structure SchedSt where
  started : Nat → Nat
  finished : Nat → Nat

def schedInit : SchedSt := ⟨fun _ => 0, fun _ => 0⟩

/-- A start of user `u`'s next turn is enabled only when all of `u`'s
started turns have finished (the chain hands it the continuation); a
finish is enabled when `u` has a running turn.  Other users' counters are
untouched, so steps of distinct users never disable each other. -/
def schedStep (s : SchedSt) : TurnEv → Option SchedSt
  | .start u =>
    if s.started u = s.finished u then
      some ⟨fun v => if v = u then s.started v + 1 else s.started v, s.finished⟩
    else none
  | .finish u =>
    if s.started u = s.finished u + 1 then
      some ⟨s.started, fun v => if v = u then s.finished v + 1 else s.finished v⟩
    else none

/-- Run a candidate event sequence; `none` means some step was not enabled,
i.e. the sequence is not an execution the chain admits. -/
def schedRunFrom (s : SchedSt) : List TurnEv → Option SchedSt
  | [] => some s
  | e :: rest =>
    match schedStep s e with
    | some s' => schedRunFrom s' rest
    | none => none

def schedRun (evs : List TurnEv) : Option SchedSt := schedRunFrom schedInit evs

/-- Number of `start u` events in a sequence. -/
def countStart (u : Nat) : List TurnEv → Nat
  | [] => 0
  | .start v :: rest => (if v = u then 1 else 0) + countStart u rest
  | .finish _ :: rest => countStart u rest

/-- Number of `finish u` events in a sequence. -/
def countFinish (u : Nat) : List TurnEv → Nat
  | [] => 0
  | .start _ :: rest => countFinish u rest
  | .finish v :: rest => (if v = u then 1 else 0) + countFinish u rest

lemma schedRunFrom_append (s : SchedSt) (l1 l2 : List TurnEv) :
    schedRunFrom s (l1 ++ l2) =
      match schedRunFrom s l1 with
      | some s' => schedRunFrom s' l2
      | none => none := by
  induction l1 generalizing s with
  | nil => simp [schedRunFrom]
  | cons e rest ih =>
    simp only [List.cons_append, schedRunFrom]
    cases schedStep s e with
    | some s' => exact ih s'
    | none => rfl

lemma schedRunFrom_counts (u : Nat) :
    ∀ (evs : List TurnEv) (s s' : SchedSt),
      schedRunFrom s evs = some s' →
      s'.started u = s.started u + countStart u evs
      ∧ s'.finished u = s.finished u + countFinish u evs := by
  intro evs
  induction evs with
  | nil =>
    intro s s' h
    have hs : s = s' := by simpa [schedRunFrom] using h
    subst hs
    simp [countStart, countFinish]
  | cons e rest ih =>
    intro s s' h
    simp only [schedRunFrom] at h
    cases hstep : schedStep s e with
    | none => rw [hstep] at h; exact absurd h (by simp)
    | some s1 =>
      rw [hstep] at h
      obtain ⟨ha, hb⟩ := ih s1 s' h
      cases e with
      | start v =>
        simp only [schedStep] at hstep
        by_cases hen : s.started v = s.finished v
        · rw [if_pos hen] at hstep
          have hs1 : s1 = ⟨fun w => if w = v then s.started w + 1 else s.started w,
              s.finished⟩ := by simpa using hstep.symm
          subst hs1
          by_cases hv : v = u
          · subst hv
            simp only [countStart, countFinish, if_pos rfl] at *
            constructor <;> [skip; exact hb] <;> simp at ha ⊢ <;> omega
          · constructor
            · rw [ha]
              simp only [if_neg (Ne.symm hv)]
              simp [countStart, if_neg hv]
            · rw [hb]
              simp [countFinish]
        · rw [if_neg hen] at hstep
          exact absurd hstep (by simp)
      | finish v =>
        simp only [schedStep] at hstep
        by_cases hen : s.started v = s.finished v + 1
        · rw [if_pos hen] at hstep
          have hs1 : s1 = ⟨s.started,
              fun w => if w = v then s.finished w + 1 else s.finished w⟩ := by
            simpa using hstep.symm
          subst hs1
          by_cases hv : v = u
          · subst hv
            simp only [countStart, countFinish, if_pos rfl] at *
            constructor
            · exact ha
            · simp at hb ⊢; omega
          · constructor
            · rw [ha]
              simp [countStart]
            · rw [hb]
              simp only [if_neg (Ne.symm hv)]
              simp [countFinish, if_neg hv]
        · rw [if_neg hen] at hstep
          exact absurd hstep (by simp)

/-- C9: in every execution the chain admits, a turn of user `u` starts
only when every previously started turn of `u` has finished — so turn n+1
of a user runs strictly after turn n's processing completes — while a
trace in which a second user's whole turn runs inside the first user's
turn is admitted: distinct users are not ordered. -/
theorem per_user_turns_serialized :
    (∀ (evs1 evs2 : List TurnEv) (u : Nat),
        (schedRun (evs1 ++ TurnEv.start u :: evs2)).isSome = true →
        countStart u evs1 = countFinish u evs1)
    ∧ (schedRun [TurnEv.start 1, TurnEv.start 2, TurnEv.finish 2,
        TurnEv.finish 1]).isSome = true := by
  constructor
  · intro evs1 evs2 u h
    unfold schedRun at h
    rw [schedRunFrom_append] at h
    cases h1 : schedRunFrom schedInit evs1 with
    | none => rw [h1] at h; simp at h
    | some s1 =>
      rw [h1] at h
      obtain ⟨ha, hb⟩ := schedRunFrom_counts u evs1 schedInit s1 h1
      simp only [schedRunFrom] at h
      cases h2 : schedStep s1 (TurnEv.start u) with
      | none => rw [h2] at h; simp at h
      | some s2 =>
        simp only [schedStep] at h2
        by_cases hen : s1.started u = s1.finished u
        · rw [ha, hb] at hen
          simpa [schedInit] using hen
        · rw [if_neg hen] at h2
          exact absurd h2 (by simp)
  · rfl

/-- C9 witness: in the admitted execution start 1, finish 1, start 2 the
second turn of the trace starts only after all previously started turns of
user 2 (none) are finished; instantiating the serialization half at the
overlapped trace's own prefix also checks it concretely. -/
theorem per_user_turns_serialized_witness :
    countStart 1 [TurnEv.start 1, TurnEv.finish 1] =
      countFinish 1 [TurnEv.start 1, TurnEv.finish 1] :=
  per_user_turns_serialized.1 [TurnEv.start 1, TurnEv.finish 1] [] 1 rfl

end Sberdemo
